import Mathlib

/-!
Verification of the training/evaluation harness in
recommenders/models/newsrec/models/base_model.py (class BaseModel).

The Python code is shallowly embedded: scalar metric and loss values and
vector components become rational numbers, numpy vectors become lists of
rationals, the deque-based stopping history becomes a list used FIFO
(front of the list is the oldest element), and operations that can raise
at runtime (min of an empty deque, popleft of an empty deque) return an
explicit error outcome.
-/

/-- Dot product of two dense vectors, as computed by numpy dot of a news
vector row against a user vector. -/
def dotp (a b : List ℚ) : ℚ := (List.zipWith (fun x y => x * y) a b).sum

/-- One record of the impression stream yielded by
load_impression_from_file: (impr_index, news_index, user_index, label). -/
structure ImprRecord where
  impr_index : Nat
  news_index : List Nat
  user_index : Nat
  label : List ℚ
deriving DecidableEq

/-- Embedding of BaseModel.run_fast_eval (base_model.py lines 397-422):
the news / user vector caches are given as index-to-vector maps; the loop
appends, per impression record, the impression index, the label, and the
prediction vector of dot products of each cached candidate news vector
with the cached user vector looked up at the impression index.
Returns (group_impr_indexes, group_labels, group_preds). -/
def run_fast_eval (news_vecs user_vecs : Nat → List ℚ) (stream : List ImprRecord) :
    List Nat × List (List ℚ) × List (List ℚ) :=
  stream.foldl
    (fun acc r =>
      (acc.1 ++ [r.impr_index],
       acc.2.1 ++ [r.label],
       acc.2.2 ++ [r.news_index.map (fun i => dotp (news_vecs i) (user_vecs r.impr_index))]))
    ([], [], [])

/-- Embedding of BaseModel.group_labels (base_model.py lines 281-312):
order the distinct keys ascending; for each key, the label bucket and the
prediction bucket collect the elements whose key matches, in encounter
order of the zipped (labels, preds, group_keys) stream. -/
def group_labels {α β : Type} (labels : List α) (preds : List β) (group_keys : List Nat) :
    List Nat × List (List α) × List (List β) :=
  let all_keys := List.insertionSort (fun a b => a ≤ b) group_keys.dedup
  let trip := labels.zip (preds.zip group_keys)
  (all_keys,
   all_keys.map (fun k => (trip.filter (fun x => x.2.2 == k)).map (fun x => x.1)),
   all_keys.map (fun k => (trip.filter (fun x => x.2.2 == k)).map (fun x => x.2.1)))

/-- Per-candidate rows fed to the slow-evaluation accumulators
(base_model.py lines 379-391): for each impression of the dataset, one
(label, prediction, impression index) row per candidate news item, the
prediction being the joint scorer output for that (news, impression)
pair. -/
def slowRows (score : Nat → Nat → ℚ) (ds : List ImprRecord) : List (ℚ × ℚ × Nat) :=
  (ds.map (fun r =>
    (r.news_index.zip r.label).map
      (fun ci => (ci.2, score ci.1 r.impr_index, r.impr_index)))).flatten

/-- Embedding of BaseModel.run_slow_eval (base_model.py lines 379-395):
accumulate flattened labels, predictions and impression indexes over the
test stream, then group the three parallel lists by impression index. -/
def run_slow_eval (score : Nat → Nat → ℚ) (ds : List ImprRecord) :
    List Nat × List (List ℚ) × List (List ℚ) :=
  group_labels ((slowRows score ds).map (fun x => x.1))
    ((slowRows score ds).map (fun x => x.2.1))
    ((slowRows score ds).map (fun x => x.2.2))

/-- Embedding of BaseModel.run_eval (base_model.py lines 314-333): pick the
fast path when support_quick_scoring holds, the slow path otherwise, and
hand the grouped labels and predictions to the metric engine.
Modelled from the spec: cal_metric (recommenders.models.deeprec.deeprec_utils,
not part of the sources) is a parameter computing a metric value from the
grouped label lists and grouped prediction lists. -/
def run_eval (cal_metric : List (List ℚ) → List (List ℚ) → ℚ)
    (support_quick_scoring : Bool) (news_vecs user_vecs : Nat → List ℚ)
    (score : Nat → Nat → ℚ) (ds : List ImprRecord) : ℚ :=
  if support_quick_scoring then
    cal_metric (run_fast_eval news_vecs user_vecs ds).2.1
      (run_fast_eval news_vecs user_vecs ds).2.2
  else
    cal_metric (run_slow_eval score ds).2.1 (run_slow_eval score ds).2.2

/-- Training pass of one epoch of BaseModel.fit (base_model.py lines
199-223): fold over the training batches, accumulating the epoch loss and
the step counter, one training step per batch. -/
def trainEpoch {β : Type} (trainStep : β → ℚ) (batches : List β) : ℚ × Nat :=
  batches.foldl (fun acc b => (acc.1 + trainStep b, acc.2 + 1)) (0, 0)

/-- Reported epoch loss average of BaseModel.fit (base_model.py line 233):
epoch_loss divided by the step counter. -/
def epochAvgLoss {β : Type} (trainStep : β → ℚ) (batches : List β) : ℚ :=
  (trainEpoch trainStep batches).1 / ((trainEpoch trainStep batches).2 : ℚ)

/-- Concrete news-vector cache for the end-to-end fast-evaluation scenario:
news item 10 maps to [1,0], news item 11 maps to [0,1]. -/
def exNewsVecs : Nat → List ℚ := fun i => if i = 10 then [1, 0] else if i = 11 then [0, 1] else []

/-- Concrete user-vector cache for the end-to-end fast-evaluation scenario:
impression 0 maps to [2,3]. -/
def exUserVecs : Nat → List ℚ := fun i => if i = 0 then [2, 3] else []

/-- Hyperparameter fields of BaseModel.custom_fit: epoch count, configured
learning rate, and the early-stopping / fine-step sub-configurations.
Field order: epochs, learning_rate, use_early_stopping,
early_stopping_start_from_epoch, early_stopping_delta,
early_stopping_patience, use_fine_step, fine_step_from_epoch,
fine_step_factor. -/
structure HParams where
  epochs : Nat
  learning_rate : ℚ
  use_early_stopping : Bool
  early_stopping_start_from_epoch : Nat
  early_stopping_delta : ℚ
  early_stopping_patience : Nat
  use_fine_step : Bool
  fine_step_from_epoch : Nat
  fine_step_factor : ℚ
deriving DecidableEq

/-- Learning-rate value assigned by both fine-step triggers of custom_fit
(base_model.py lines 447 and 548): the configured hparams.learning_rate
times fine_step_factor, regardless of the current optimizer rate. -/
def fineStepLr (p : HParams) (lr : ℚ) : ℚ :=
  have _unused := lr
  p.learning_rate * p.fine_step_factor

/-- Unconditional fine-step trigger at the start of an epoch
(base_model.py lines 444-447). -/
def epochStartLr (p : HParams) (epoch : Nat) (lr : ℚ) : ℚ :=
  if p.use_fine_step && epoch == p.fine_step_from_epoch then fineStepLr p lr else lr

/-- Minimum of the stopping-history deque (python min over a nonempty
deque with front element h0 and remaining elements t). -/
def minList (h0 : ℚ) (t : List ℚ) : ℚ := t.foldl (fun a b => min a b) h0

/-- History update of custom_fit (base_model.py lines 553-555): popleft
when the length has reached patience, then append; popleft of an empty
deque raises, modelled as none. -/
def dequeUpdate (patience : Nat) (hist : List ℚ) (v : ℚ) : Option (List ℚ) :=
  if patience ≤ hist.length then
    match hist with
    | [] => none
    | _ :: t => some (t ++ [v])
  else some (hist ++ [v])

/-- Outcome of the end-of-epoch early-stopping callback: halt (return
self), continue with updated history and learning rate, or a raised
runtime error. -/
inductive EsOutcome where
  | halt : EsOutcome
  | next : List ℚ → ℚ → EsOutcome
  | err : EsOutcome
deriving DecidableEq

/-- End-of-epoch early-stopping callback of custom_fit (base_model.py
lines 538-555), given the current epoch, stopping history, optimizer
learning rate and the monitored metric value v of this epoch. The guard
short-circuits: min of the history is only evaluated when
epoch >= early_stopping_start_from_epoch, and min of an empty deque
raises (err). On a plateau with fine-stepping enabled before its
activation epoch, the learning rate is set to
learning_rate * fine_step_factor and the loop continues; otherwise a
plateau halts training with no history update. -/
def esStep (p : HParams) (epoch : Nat) (hist : List ℚ) (lr v : ℚ) : EsOutcome :=
  if p.use_early_stopping then
    if p.early_stopping_start_from_epoch ≤ epoch then
      match hist with
      | [] => EsOutcome.err
      | h0 :: t =>
        if v < minList h0 t + p.early_stopping_delta then
          if p.use_fine_step then
            if p.fine_step_from_epoch ≤ epoch then EsOutcome.halt
            else
              match dequeUpdate p.early_stopping_patience (h0 :: t) v with
              | none => EsOutcome.err
              | some h2 => EsOutcome.next h2 (fineStepLr p lr)
          else EsOutcome.halt
        else
          match dequeUpdate p.early_stopping_patience (h0 :: t) v with
          | none => EsOutcome.err
          | some h2 => EsOutcome.next h2 lr
    else
      match dequeUpdate p.early_stopping_patience hist v with
      | none => EsOutcome.err
      | some h2 => EsOutcome.next h2 lr
  else EsOutcome.next hist lr

/-- Result of a custom_fit run: loop finished all epochs, training halted
at an epoch by the stopping policy, or a runtime error aborted the run at
an epoch. -/
inductive RunResult where
  | finished : List ℚ → ℚ → RunResult
  | stopped : Nat → List ℚ → ℚ → RunResult
  | failed : Nat → RunResult
deriving DecidableEq

/-- Epoch loop of custom_fit (base_model.py lines 441-557) restricted to
the stopping policy state: at each epoch, apply the unconditional
fine-step trigger, then the end-of-epoch early-stopping callback on the
monitored metric value of the epoch. The fuel argument counts the
remaining epochs. -/
def runFrom (p : HParams) (metric : Nat → ℚ) : Nat → Nat → List ℚ → ℚ → RunResult
  | _, 0, hist, lr => RunResult.finished hist lr
  | epoch, fuel + 1, hist, lr =>
    let lr1 := epochStartLr p epoch lr
    match esStep p epoch hist lr1 (metric epoch) with
    | EsOutcome.halt => RunResult.stopped epoch hist lr1
    | EsOutcome.err => RunResult.failed epoch
    | EsOutcome.next h2 lr2 => runFrom p metric (epoch + 1) fuel h2 lr2

/-- Full custom_fit run: epochs 1 .. p.epochs starting from an empty
stopping history and the configured learning rate. -/
def custom_fit_run (p : HParams) (metric : Nat → ℚ) : RunResult :=
  runFrom p metric 1 p.epochs [] p.learning_rate

/-- Predicate selecting runs halted by the stopping policy. -/
def RunResult.isStopped : RunResult → Bool
  | RunResult.stopped _ _ _ => true
  | _ => false

/-- Stopping-history states reached at each epoch boundary of the loop of
custom_fit, including the initial empty history. -/
def runStates (p : HParams) (metric : Nat → ℚ) : Nat → Nat → List ℚ → ℚ → List (List ℚ)
  | _, 0, hist, _ => [hist]
  | epoch, fuel + 1, hist, lr =>
    let lr1 := epochStartLr p epoch lr
    hist :: (match esStep p epoch hist lr1 (metric epoch) with
      | EsOutcome.next h2 lr2 => runStates p metric (epoch + 1) fuel h2 lr2
      | _ => [])

/-- Sequential application of the history update to a list of monitored
values. -/
def dequeUpdates (patience : Nat) (hist : List ℚ) (vs : List ℚ) : Option (List ℚ) :=
  vs.foldl (fun oh v => oh.bind (fun h => dequeUpdate patience h v)) (some hist)

/-- History after a successful update of a nonempty history: drop the
oldest entry when the length has reached patience, then append. -/
def histNext (patience : Nat) (h0 : ℚ) (t : List ℚ) (v : ℚ) : List ℚ :=
  if patience ≤ t.length + 1 then t ++ [v] else h0 :: (t ++ [v])

/-- Concrete configuration exercising the plateau-driven fine-step
transition: early stopping from epoch 1, delta 0, patience 2,
fine-stepping from epoch 5, factor 1/4. -/
def pFine : HParams := ⟨5, 1, true, 1, 0, 2, true, 5, 1/4⟩

/-- Concrete early-stopping configuration with start_from_epoch 1, so the
guard is reached at the end of the first epoch with an empty history. -/
def pNine : HParams := ⟨3, 1, true, 1, 0, 2, false, 0, 1⟩

/-- Concrete configuration refuting C5 as stated: early stopping from
epoch 2, patience 2, delta 1, fine-stepping disabled, 2 epochs. -/
def pDelta : HParams := ⟨2, 1, true, 2, 1, 2, false, 0, 1⟩

/-- Strictly increasing monitored metric with per-epoch increments smaller
than the delta of pDelta. -/
def mSlow : Nat → ℚ := fun e => (e : ℚ) / 10

/-- Concrete configuration for the C5 witness: delta 0, early stopping
from epoch 2, patience 1, three epochs. -/
def pStrict : HParams := ⟨3, 1, true, 2, 0, 1, false, 0, 1⟩

/-- Index/vector pairs emitted across all batches of a news or user
stream, in emission order (the running index list zipped with the running
vector list, base_model.py lines 359-362 and 374-377). -/
def pairsOf (batches : List (List Nat × List (List ℚ))) : List (Nat × List ℚ) :=
  ((batches.map (fun b => b.1)).flatten).zip ((batches.map (fun b => b.2)).flatten)

/-- Python dict built from zip(indexes, vecs): insert each pair left to
right, later keys overwriting earlier ones. -/
def dictOfZip (ks : List Nat) (vs : List (List ℚ)) : Nat → Option (List ℚ) :=
  (ks.zip vs).foldl (fun m kv => fun q => if q = kv.1 then some kv.2 else m q)
    (fun _ => none)

/-- Embedding of BaseModel.run_news (base_model.py lines 364-377): extend
a running index list and vector list per batch, then zip into a dict. -/
def run_news (batches : List (List Nat × List (List ℚ))) : Nat → Option (List ℚ) :=
  dictOfZip ((batches.map (fun b => b.1)).flatten) ((batches.map (fun b => b.2)).flatten)

/-- Embedding of BaseModel.run_user (base_model.py lines 349-362): same
cache construction over the user batch stream, keyed by impression
index. -/
def run_user (batches : List (List Nat × List (List ℚ))) : Nat → Option (List ℚ) :=
  dictOfZip ((batches.map (fun b => b.1)).flatten) ((batches.map (fun b => b.2)).flatten)

/-- Last vector emitted for a given index across the batch stream. -/
def lastEmitted (batches : List (List Nat × List (List ℚ))) (k : Nat) : Option (List ℚ) :=
  (((pairsOf batches).filter (fun kv => kv.1 == k)).getLast?).map (fun kv => kv.2)

/-- Formalization of C8 as stated: for some news (resp. user) batch stream
emitting a duplicated index, the zip-built cache maps that index to a
vector other than the last one emitted for it. -/
def cacheMissesLastWrite : Prop :=
  ∃ (nb ub : List (List Nat × List (List ℚ))) (k : Nat),
    (2 ≤ ((pairsOf nb).filter (fun kv => kv.1 == k)).length ∧
      run_news nb k ≠ lastEmitted nb k) ∨
    (2 ≤ ((pairsOf ub).filter (fun kv => kv.1 == k)).length ∧
      run_user ub k ≠ lastEmitted ub k)

/-- Concrete labels for the grouping witness. -/
def wLabels : List ℚ := [10, 20, 30]

/-- Concrete predictions for the grouping witness. -/
def wPreds : List ℚ := [1, 2, 3]

/-- Concrete group keys for the grouping witness. -/
def wKeys : List Nat := [7, 5, 7]

/-- Sorted distinct impression keys produced by the grouping pass of
run_slow_eval. -/
def skOf (score : Nat → Nat → ℚ) (ds : List ImprRecord) : List Nat :=
  List.insertionSort (fun a b => a ≤ b) (((slowRows score ds).map (fun x => x.2.2)).dedup)

/-- Label bucket of run_slow_eval for one impression key. -/
def bLOf (score : Nat → Nat → ℚ) (ds : List ImprRecord) (k : Nat) : List ℚ :=
  ((slowRows score ds).filter (fun x => x.2.2 == k)).map (fun x => x.1)

/-- Prediction bucket of run_slow_eval for one impression key. -/
def bPOf (score : Nat → Nat → ℚ) (ds : List ImprRecord) (k : Nat) : List ℚ :=
  ((slowRows score ds).filter (fun x => x.2.2 == k)).map (fun x => x.2.1)

/-- Concrete joint scorer equal by definition to the dot product of the
example encoders. -/
def wScore : Nat → Nat → ℚ := fun n u => dotp (exNewsVecs n) (exUserVecs u)

/-- Concrete two-impression dataset for the evaluation-equivalence
witness. -/
def wDs : List ImprRecord := [⟨0, [10, 11], 0, [1, 0]⟩, ⟨1, [11], 1, [1]⟩]

/-- Concrete metric engine, invariant under reordering of groups: the sum
over groups of (sum of labels + sum of predictions). -/
def wMetric : List (List ℚ) → List (List ℚ) → ℚ :=
  fun a b => ((a.zip b).map (fun g => g.1.sum + g.2.sum)).sum

lemma trainEpoch_foldl {β : Type} (trainStep : β → ℚ) (batches : List β) (p : ℚ × Nat) :
    batches.foldl (fun acc b => (acc.1 + trainStep b, acc.2 + 1)) p =
      (p.1 + (batches.map trainStep).sum, p.2 + batches.length) := by
  induction batches generalizing p with
  | nil => simp
  | cons b t ih => simp [ih, add_assoc, Nat.add_comm, Nat.add_assoc, Nat.add_left_comm]

/-- C7: in each epoch of fit, every batch of the training sequence is
consumed with exactly one training step per batch, and the reported epoch
loss average equals the sum of the per-step scalar losses divided by the
number of steps; in particular a 3-batch epoch with step losses
[0.9, 0.7, 0.5] reports average loss 0.7. -/
theorem C7_fit_epoch_loss {β : Type} (trainStep : β → ℚ) (batches : List β) :
    (trainEpoch trainStep batches).2 = batches.length ∧
    (trainEpoch trainStep batches).1 = (batches.map trainStep).sum ∧
    epochAvgLoss trainStep batches = (batches.map trainStep).sum / (batches.length : ℚ) ∧
    epochAvgLoss (fun q : ℚ => q) [9/10, 7/10, 5/10] = 7/10 := by
  refine ⟨?_, ?_, ?_, ?_⟩
  · simp [trainEpoch, trainEpoch_foldl]
  · simp [trainEpoch, trainEpoch_foldl]
  · simp [epochAvgLoss, trainEpoch, trainEpoch_foldl]
  · norm_num [epochAvgLoss, trainEpoch]

lemma run_fast_eval_foldl (news_vecs user_vecs : Nat → List ℚ) (stream : List ImprRecord)
    (acc : List Nat × List (List ℚ) × List (List ℚ)) :
    stream.foldl
      (fun acc r =>
        (acc.1 ++ [r.impr_index],
         acc.2.1 ++ [r.label],
         acc.2.2 ++ [r.news_index.map (fun i => dotp (news_vecs i) (user_vecs r.impr_index))]))
      acc =
      (acc.1 ++ stream.map (fun r => r.impr_index),
       acc.2.1 ++ stream.map (fun r => r.label),
       acc.2.2 ++ stream.map
         (fun r => r.news_index.map (fun i => dotp (news_vecs i) (user_vecs r.impr_index)))) := by
  induction stream generalizing acc with
  | nil => simp
  | cons r t ih => simp [ih]

lemma run_fast_eval_eq (news_vecs user_vecs : Nat → List ℚ) (stream : List ImprRecord) :
    run_fast_eval news_vecs user_vecs stream =
      (stream.map (fun r => r.impr_index),
       stream.map (fun r => r.label),
       stream.map (fun r => r.news_index.map
         (fun i => dotp (news_vecs i) (user_vecs r.impr_index)))) := by
  simp [run_fast_eval, run_fast_eval_foldl]

/-- C3: in run_fast_eval, for every record of the impression stream the
emitted prediction is the dot product of the stacked cached news vectors
of the candidates with the cached user vector of the impression, and
exactly one group entry (impression index, label, prediction) is appended
per record with no further grouping pass; the impression stream
[(0, [10,11], 0, [1,0])] with news vectors 10 -> [1,0], 11 -> [0,1] and
user vector 0 -> [2,3] yields the single group with prediction [2,3] and
label [1,0]. -/
theorem C3_run_fast_eval_shape :
    (∀ (news_vecs user_vecs : Nat → List ℚ) (stream : List ImprRecord),
       run_fast_eval news_vecs user_vecs stream =
         (stream.map (fun r => r.impr_index),
          stream.map (fun r => r.label),
          stream.map (fun r => r.news_index.map
            (fun i => dotp (news_vecs i) (user_vecs r.impr_index))))) ∧
    run_fast_eval exNewsVecs exUserVecs [⟨0, [10, 11], 0, [1, 0]⟩] =
      ([0], [[1, 0]], [[2, 3]]) := by
  refine ⟨run_fast_eval_eq, ?_⟩
  norm_num [run_fast_eval, dotp, exNewsVecs, exUserVecs]

lemma dequeUpdate_cons (patience : Nat) (h0 : ℚ) (t : List ℚ) (v : ℚ) :
    dequeUpdate patience (h0 :: t) v = some (histNext patience h0 t v) := by
  by_cases h : patience ≤ t.length + 1 <;> simp [dequeUpdate, histNext, h]

/-- C4: in custom_fit, when early stopping is enabled and the epoch is at
least early_stopping_start_from_epoch, a plateau is detected exactly when
the monitored value is strictly below min(history) + delta; on a plateau,
with fine-stepping enabled and epoch >= fine_step_from_epoch, or with
fine-stepping disabled, training halts immediately; with fine-stepping
enabled and epoch < fine_step_from_epoch, the learning rate is set to
learning_rate * fine_step_factor and training continues; with no plateau
the loop continues with an unchanged learning rate. -/
theorem C4_plateau_transition (p : HParams) (epoch : Nat) (h0 : ℚ) (t : List ℚ) (lr v : ℚ)
    (hES : p.use_early_stopping = true)
    (hep : p.early_stopping_start_from_epoch ≤ epoch) :
    (v < minList h0 t + p.early_stopping_delta → p.use_fine_step = true →
        p.fine_step_from_epoch ≤ epoch →
        esStep p epoch (h0 :: t) lr v = EsOutcome.halt) ∧
    (v < minList h0 t + p.early_stopping_delta → p.use_fine_step = true →
        epoch < p.fine_step_from_epoch →
        esStep p epoch (h0 :: t) lr v =
          EsOutcome.next (histNext p.early_stopping_patience h0 t v)
            (p.learning_rate * p.fine_step_factor)) ∧
    (v < minList h0 t + p.early_stopping_delta → p.use_fine_step = false →
        esStep p epoch (h0 :: t) lr v = EsOutcome.halt) ∧
    (minList h0 t + p.early_stopping_delta ≤ v →
        esStep p epoch (h0 :: t) lr v =
          EsOutcome.next (histNext p.early_stopping_patience h0 t v) lr) := by
  refine ⟨?_, ?_, ?_, ?_⟩
  · intro h1 h2 h3
    simp [esStep, hES, hep, h1, h2, h3]
  · intro h1 h2 h3
    simp [esStep, hES, hep, h1, h2, Nat.not_le.mpr h3, dequeUpdate_cons, fineStepLr]
  · intro h1 h2
    simp [esStep, hES, hep, h1, h2]
  · intro h1
    simp [esStep, hES, hep, not_lt.mpr h1, dequeUpdate_cons]

/-- Witness for C4: at epoch 3 with history [1] and monitored value 1/2, a
plateau before the fine-step epoch continues with the absolute fine-step
learning rate 1/4 and history [1, 1/2]. -/
theorem C4_plateau_transition_witness :
    esStep pFine 3 [1] 1 (1/2) = EsOutcome.next [1, 1/2] (1/4) := by
  have h := (C4_plateau_transition pFine 3 1 [] 1 (1/2) rfl (by norm_num [pFine])).2.1
    (by norm_num [minList, pFine]) rfl (by norm_num [pFine])
  simpa [histNext, pFine] using h

lemma esStep_empty_err (p : HParams) (epoch : Nat) (lr v : ℚ)
    (hES : p.use_early_stopping = true)
    (h : p.early_stopping_start_from_epoch ≤ epoch) :
    esStep p epoch [] lr v = EsOutcome.err := by
  simp [esStep, hES, h]

/-- C9: in custom_fit with early stopping enabled, whenever the plateau
guard is reached while the stopping history is empty — at the end of the
first epoch exactly when early_stopping_start_from_epoch <= 1 — the
evaluation of min over the empty history fails and the run aborts, instead
of being treated as no plateau; with start_from_epoch >= 2 the first epoch
records its value instead. -/
theorem C9_empty_history_min_error (p : HParams) (lr v : ℚ)
    (hES : p.use_early_stopping = true)
    (hpat : 1 ≤ p.early_stopping_patience) :
    (p.early_stopping_start_from_epoch ≤ 1 → esStep p 1 [] lr v = EsOutcome.err) ∧
    (2 ≤ p.early_stopping_start_from_epoch →
        esStep p 1 [] lr v = EsOutcome.next [v] lr) ∧
    (∀ epoch, p.early_stopping_start_from_epoch ≤ epoch →
        esStep p epoch [] lr v = EsOutcome.err) ∧
    (∀ (metric : Nat → ℚ) (fuel : Nat) (lr2 : ℚ),
        p.early_stopping_start_from_epoch ≤ 1 →
        runFrom p metric 1 (fuel + 1) [] lr2 = RunResult.failed 1) := by
  refine ⟨fun h => esStep_empty_err p 1 lr v hES h, ?_, fun epoch h => esStep_empty_err p epoch lr v hES h, ?_⟩
  · intro h
    have hne : ¬ p.early_stopping_start_from_epoch ≤ 1 := by omega
    have hp0 : p.early_stopping_patience ≠ 0 := by omega
    simp [esStep, hES, hne, dequeUpdate, hp0]
  · intro metric fuel lr2 h
    simp [runFrom, esStep_empty_err p 1 _ _ hES h]

/-- Witness for C9: with start_from_epoch 1, the callback at the end of
epoch 1 raises on the empty history. -/
theorem C9_empty_history_min_error_witness :
    esStep pNine 1 [] 1 0 = EsOutcome.err :=
  (C9_empty_history_min_error pNine 1 0 rfl (by norm_num [pNine])).1 (by norm_num [pNine])

/-- Counterexample to C5 as stated: the metric mSlow strictly increases at
every epoch (in particular across the two epochs of the run), yet with
delta = 1 the plateau guard fires at epoch 2 and the run is halted by the
stopping policy. -/
theorem C5_counterexample :
    mSlow 1 < mSlow 2 ∧
    custom_fit_run pDelta mSlow = RunResult.stopped 2 [1/10] 1 := by
  constructor
  · norm_num [mSlow]
  · norm_num [custom_fit_run, runFrom, esStep, epochStartLr, dequeUpdate, minList,
      pDelta, mSlow]

lemma minList_lt (h0 : ℚ) (t : List ℚ) (c : ℚ) (h : ∀ x ∈ h0 :: t, x < c) :
    minList h0 t < c := by
  induction t generalizing h0 with
  | nil => exact h h0 (by simp [minList])
  | cons b t ih =>
    have : minList h0 (b :: t) = minList (min h0 b) t := rfl
    rw [this]
    refine ih (min h0 b) (fun x hx => ?_)
    rcases List.mem_cons.mp hx with hx | hx
    · subst hx
      exact lt_of_le_of_lt (min_le_left h0 b) (h h0 (by simp))
    · exact h x (by simp [hx])

lemma dequeUpdate_mem (patience : Nat) (hist h2 : List ℚ) (v : ℚ)
    (h : dequeUpdate patience hist v = some h2) :
    ∀ x ∈ h2, x ∈ hist ∨ x = v := by
  intro x hx
  unfold dequeUpdate at h
  split at h
  · cases hist with
    | nil => simp at h
    | cons h0 t =>
      simp only [Option.some.injEq] at h
      subst h
      rcases List.mem_append.mp hx with hx | hx
      · exact Or.inl (List.mem_cons_of_mem h0 hx)
      · exact Or.inr (by simpa using hx)
  · simp only [Option.some.injEq] at h
    subst h
    rcases List.mem_append.mp hx with hx | hx
    · exact Or.inl hx
    · exact Or.inr (by simpa using hx)

lemma esStep_cases_of_improving (p : HParams) (epoch : Nat) (hist : List ℚ) (lr v : ℚ)
    (hdelta : p.early_stopping_delta ≤ 0)
    (hv : ∀ x ∈ hist, x < v) :
    esStep p epoch hist lr v = EsOutcome.err ∨
    ∃ h2 lr2, esStep p epoch hist lr v = EsOutcome.next h2 lr2 ∧
      ∀ x ∈ h2, x ∈ hist ∨ x = v := by
  cases hb : p.use_early_stopping with
  | false =>
    exact Or.inr ⟨hist, lr, by simp [esStep, hb], fun x hx => Or.inl hx⟩
  | true =>
    by_cases hg : p.early_stopping_start_from_epoch ≤ epoch
    · cases hist with
      | nil => exact Or.inl (by simp [esStep, hb, hg])
      | cons h0 t =>
        have hmin : minList h0 t < v := minList_lt h0 t v hv
        have hng : ¬ v < minList h0 t + p.early_stopping_delta := by linarith
        cases hu : dequeUpdate p.early_stopping_patience (h0 :: t) v with
        | none => exact Or.inl (by simp [esStep, hb, hg, hng, hu])
        | some h2 =>
          exact Or.inr ⟨h2, lr, by simp [esStep, hb, hg, hng, hu],
            dequeUpdate_mem _ _ _ _ hu⟩
    · cases hu : dequeUpdate p.early_stopping_patience hist v with
      | none => exact Or.inl (by simp [esStep, hb, hg, hu])
      | some h2 =>
        exact Or.inr ⟨h2, lr, by simp [esStep, hb, hg, hu],
          dequeUpdate_mem _ _ _ _ hu⟩

lemma runFrom_not_stopped (p : HParams) (metric : Nat → ℚ)
    (hdelta : p.early_stopping_delta ≤ 0)
    (hmono : ∀ e, metric e < metric (e + 1)) :
    ∀ (fuel epoch : Nat) (hist : List ℚ) (lr : ℚ),
      (∀ x ∈ hist, x < metric epoch) →
      (runFrom p metric epoch fuel hist lr).isStopped = false := by
  intro fuel
  induction fuel with
  | zero =>
    intro epoch hist lr _
    simp [runFrom, RunResult.isStopped]
  | succ n ih =>
    intro epoch hist lr hinv
    rcases esStep_cases_of_improving p epoch hist (epochStartLr p epoch lr) (metric epoch)
        hdelta hinv with he | ⟨h2, lr2, he, hmem⟩
    · simp [runFrom, he, RunResult.isStopped]
    · have hinv2 : ∀ x ∈ h2, x < metric (epoch + 1) := by
        intro x hx
        rcases hmem x hx with hx2 | hx2
        · exact lt_trans (hinv x hx2) (hmono epoch)
        · subst hx2; exact hmono epoch
      simp only [runFrom, he]
      exact ih (epoch + 1) h2 lr2 hinv2

/-- C5 amended: the claim as stated fails for a positive delta (see the
counterexample); with early stopping enabled, if the monitored metric
strictly increases at every epoch and early_stopping_delta <= 0, early
stopping never halts the run, for any patience and start epoch. -/
theorem C5_strict_increase_no_stop (p : HParams) (metric : Nat → ℚ)
    (hES : p.use_early_stopping = true)
    (hdelta : p.early_stopping_delta ≤ 0)
    (hmono : ∀ e, metric e < metric (e + 1)) :
    (custom_fit_run p metric).isStopped = false := by
  have _unused := hES
  exact runFrom_not_stopped p metric hdelta hmono p.epochs 1 [] p.learning_rate
    (by simp)

/-- Witness for the amended C5: with delta 0 and the strictly increasing
metric e, the run is never halted by the stopping policy. -/
theorem C5_strict_increase_no_stop_witness :
    (custom_fit_run pStrict (fun e => (e : ℚ))).isStopped = false :=
  C5_strict_increase_no_stop pStrict (fun e => (e : ℚ)) rfl (by norm_num [pStrict])
    (fun e => by push_cast; linarith)

lemma dequeUpdate_length (patience : Nat) (hist h2 : List ℚ) (v : ℚ)
    (hlen : hist.length ≤ patience) (h : dequeUpdate patience hist v = some h2) :
    h2.length ≤ patience := by
  unfold dequeUpdate at h
  split at h
  · cases hist with
    | nil => simp at h
    | cons h0 t =>
      simp only [Option.some.injEq] at h
      subst h
      simp only [List.length_cons] at hlen
      simp only [List.length_append, List.length_cons, List.length_nil]
      omega
  · rename_i hc
    simp only [Option.some.injEq] at h
    subst h
    simp only [Nat.not_le] at hc
    simp only [List.length_append, List.length_cons, List.length_nil]
    omega

lemma esStep_next_sources (p : HParams) (epoch : Nat) (hist : List ℚ) (lr v : ℚ)
    (h2 : List ℚ) (lr2 : ℚ)
    (he : esStep p epoch hist lr v = EsOutcome.next h2 lr2) :
    h2 = hist ∨ dequeUpdate p.early_stopping_patience hist v = some h2 := by
  unfold esStep at he
  split at he
  · split at he
    · split at he
      · simp at he
      · split at he
        · split at he
          · split at he
            · simp at he
            · split at he
              · simp at he
              · rename_i hu
                simp only [EsOutcome.next.injEq] at he
                exact Or.inr (by rw [hu, he.1])
          · simp at he
        · split at he
          · simp at he
          · rename_i hu
            simp only [EsOutcome.next.injEq] at he
            exact Or.inr (by rw [hu, he.1])
    · split at he
      · simp at he
      · rename_i hu
        simp only [EsOutcome.next.injEq] at he
        exact Or.inr (by rw [hu, he.1])
  · simp only [EsOutcome.next.injEq] at he
    exact Or.inl he.1.symm

lemma esStep_next_length (p : HParams) (epoch : Nat) (hist h2 : List ℚ) (lr lr2 v : ℚ)
    (hlen : hist.length ≤ p.early_stopping_patience)
    (he : esStep p epoch hist lr v = EsOutcome.next h2 lr2) :
    h2.length ≤ p.early_stopping_patience := by
  rcases esStep_next_sources p epoch hist lr v h2 lr2 he with h | h
  · subst h; exact hlen
  · exact dequeUpdate_length _ hist h2 v hlen h

lemma runStates_length (p : HParams) (metric : Nat → ℚ) :
    ∀ (fuel epoch : Nat) (hist : List ℚ) (lr : ℚ),
      hist.length ≤ p.early_stopping_patience →
      ∀ s ∈ runStates p metric epoch fuel hist lr,
        s.length ≤ p.early_stopping_patience := by
  intro fuel
  induction fuel with
  | zero =>
    intro epoch hist lr hl s hs
    simp only [runStates, List.mem_singleton] at hs
    subst hs; exact hl
  | succ n ih =>
    intro epoch hist lr hl s hs
    simp only [runStates] at hs
    rcases List.mem_cons.mp hs with hs | hs
    · subst hs; exact hl
    · rcases he : esStep p epoch hist (epochStartLr p epoch lr) (metric epoch) with
        _ | ⟨h2, lr2⟩ | _
      · rw [he] at hs; simp at hs
      · rw [he] at hs
        exact ih (epoch + 1) h2 lr2
          (esStep_next_length p epoch hist h2 _ lr2 _ hl he) s hs
      · rw [he] at hs; simp at hs

lemma dequeUpdates_append_of_le (patience : Nat) :
    ∀ (vs hist : List ℚ), hist.length + vs.length ≤ patience →
      dequeUpdates patience hist vs = some (hist ++ vs) := by
  intro vs
  induction vs with
  | nil => intro hist h; simp [dequeUpdates]
  | cons v vs ih =>
    intro hist h
    simp only [List.length_cons] at h
    have h1 : ¬ patience ≤ hist.length := by omega
    have h2 : dequeUpdate patience hist v = some (hist ++ [v]) := by
      simp [dequeUpdate, h1]
    have h3 : dequeUpdates patience (hist ++ [v]) vs = some ((hist ++ [v]) ++ vs) :=
      ih (hist ++ [v]) (by simp; omega)
    simp only [dequeUpdates] at h3 ⊢
    simp only [List.foldl_cons, Option.some_bind]
    rw [h2, h3]
    simp

lemma dequeUpdates_evicts_oldest (patience : Nat) (vs : List ℚ) (v : ℚ)
    (hpat : 1 ≤ patience) (hlen : vs.length = patience) :
    dequeUpdates patience [] (vs ++ [v]) = some (vs.tail ++ [v]) := by
  have h1 : dequeUpdates patience [] vs = some vs := by
    simpa using dequeUpdates_append_of_le patience vs [] (by simp [hlen])
  have h2 : dequeUpdates patience [] (vs ++ [v]) =
      (dequeUpdates patience [] vs).bind (fun h => dequeUpdate patience h v) := by
    simp [dequeUpdates, List.foldl_append]
  cases vs with
  | nil => simp at hlen; omega
  | cons a t =>
    rw [h2, h1, Option.some_bind]
    have hc : patience ≤ t.length + 1 := by
      simp only [List.length_cons] at hlen
      omega
    simp [dequeUpdate, hc]

/-- C6: throughout a run of custom_fit with early stopping enabled, the
stopping-history length never exceeds early_stopping_patience; each
non-stopping epoch discards the oldest entry once the length has reached
patience and then appends the current value, so after patience+1
non-stopping updates the first recorded value is the one evicted; and the
epoch that halts training performs no history update. -/
theorem C6_history_bounded_fifo (p : HParams) (metric : Nat → ℚ)
    (hES : p.use_early_stopping = true)
    (hpat : 1 ≤ p.early_stopping_patience) :
    (∀ s ∈ runStates p metric 1 p.epochs [] p.learning_rate,
        s.length ≤ p.early_stopping_patience) ∧
    (∀ (vs : List ℚ) (v : ℚ), vs.length = p.early_stopping_patience →
        dequeUpdates p.early_stopping_patience [] (vs ++ [v]) =
          some (vs.tail ++ [v])) ∧
    (∀ (epoch fuel : Nat) (hist : List ℚ) (lr : ℚ),
        esStep p epoch hist (epochStartLr p epoch lr) (metric epoch) = EsOutcome.halt →
        runFrom p metric epoch (fuel + 1) hist lr =
          RunResult.stopped epoch hist (epochStartLr p epoch lr)) := by
  have _unused := hES
  refine ⟨?_, ?_, ?_⟩
  · exact fun s hs =>
      runStates_length p metric p.epochs 1 [] p.learning_rate (by simp) s hs
  · exact fun vs v h => dequeUpdates_evicts_oldest _ vs v hpat h
  · intro epoch fuel hist lr he
    simp [runFrom, he]

/-- Witness for C6: with patience 2, after the three updates 1, 2, 3 from
an empty history the oldest value 1 is the one evicted. -/
theorem C6_history_bounded_fifo_witness :
    dequeUpdates 2 [] [(1:ℚ), 2, 3] = some [2, 3] := by
  have h := (C6_history_bounded_fifo pFine (fun _ => 0) rfl
    (by norm_num [pFine])).2.1 [1, 2] 3 (by norm_num [pFine])
  simpa [pFine] using h

lemma fineStepLr_iterate_fixed (p : HParams) (m : Nat) :
    Nat.iterate (fineStepLr p) m (p.learning_rate * p.fine_step_factor) =
      p.learning_rate * p.fine_step_factor := by
  induction m with
  | zero => rfl
  | succ k ih => rw [Function.iterate_succ_apply]; exact ih

/-- C10: both fine-step triggers in custom_fit assign the optimizer
learning rate the absolute value hparams.learning_rate * fine_step_factor
computed from the originally configured learning rate, not a multiple of
the current rate; firing the trigger any positive number of times leaves
the learning rate equal to firing it once. -/
theorem C10_fine_step_absolute (p : HParams) (lr lr2 : ℚ) (n : Nat) (hn : 1 ≤ n) :
    fineStepLr p lr = p.learning_rate * p.fine_step_factor ∧
    fineStepLr p lr = fineStepLr p lr2 ∧
    Nat.iterate (fineStepLr p) n lr = p.learning_rate * p.fine_step_factor ∧
    (p.use_fine_step = true →
      epochStartLr p p.fine_step_from_epoch lr = p.learning_rate * p.fine_step_factor) := by
  refine ⟨rfl, rfl, ?_, ?_⟩
  · cases n with
    | zero => omega
    | succ m =>
      rw [Function.iterate_succ_apply]
      exact fineStepLr_iterate_fixed p m
  · intro h
    simp [epochStartLr, h, fineStepLr]

/-- Witness for C10: firing the fine-step trigger of pFine three times
from learning rate 5 yields the single absolute value 1 * (1/4). -/
theorem C10_fine_step_absolute_witness :
    Nat.iterate (fineStepLr pFine) 3 5 = 1/4 := by
  have h := (C10_fine_step_absolute pFine 5 7 3 (by norm_num)).2.2.1
  simpa [pFine] using h

lemma foldl_insert_lookup :
    ∀ (l : List (Nat × List ℚ)) (m : Nat → Option (List ℚ)) (k : Nat),
      (l.foldl (fun m kv => fun q => if q = kv.1 then some kv.2 else m q) m) k =
        ((l.filter (fun kv => kv.1 == k)).getLast?).elim (m k) (fun kv => some kv.2) := by
  intro l
  induction l with
  | nil => intro m k; simp
  | cons x t ih =>
    intro m k
    by_cases hx : x.1 = k
    · cases hf : ((t.filter (fun kv => kv.1 == k)).getLast?) with
      | none =>
        have ht : t.filter (fun kv => kv.1 == k) = [] := by
          simpa using hf
        simp only [List.foldl_cons, ih, hf, List.filter_cons, hx]
        simp [ht, hx]
      | some kv =>
        obtain ⟨y, ys, hys⟩ : ∃ y ys, t.filter (fun kv => kv.1 == k) = y :: ys := by
          cases hl : t.filter (fun kv => kv.1 == k) with
          | nil => rw [hl] at hf; simp at hf
          | cons y ys => exact ⟨y, ys, rfl⟩
        simp only [List.foldl_cons, ih, hf, List.filter_cons, hx]
        simp only [beq_self_eq_true, if_true]
        rw [hys]
        rw [hys] at hf
        simp [List.getLast?_cons_cons, hf]
    · have hxb : (x.1 == k) = false := by simp [hx]
      simp only [List.foldl_cons, ih, List.filter_cons, hxb]
      have hm : (if k = x.1 then some x.2 else m k) = m k :=
        if_neg (fun h => hx h.symm)
      simp [hm]

lemma dict_last_wins (batches : List (List Nat × List (List ℚ))) (k : Nat) :
    dictOfZip ((batches.map (fun b => b.1)).flatten)
      ((batches.map (fun b => b.2)).flatten) k = lastEmitted batches k := by
  have h := foldl_insert_lookup (pairsOf batches) (fun _ => none) k
  rw [dictOfZip,
    show ((batches.map (fun b => b.1)).flatten).zip ((batches.map (fun b => b.2)).flatten) =
      pairsOf batches from rfl, h, lastEmitted]
  cases ((pairsOf batches).filter (fun kv => kv.1 == k)).getLast? with
  | none => simp
  | some kv => simp

/-- Counterexample to C8 as stated: no such input exists, because python
dict construction from zipped pairs deterministically lets the last
insertion win. -/
theorem C8_counterexample_no_miss : ¬ cacheMissesLastWrite := by
  rintro ⟨nb, ub, k, h | h⟩
  · exact h.2 (dict_last_wins nb k)
  · exact h.2 (dict_last_wins ub k)

/-- C8 amended: the vector caches built by run_news and run_user always
associate every index — duplicated across the stream or not — with the
last vector emitted for it (last insertion wins). -/
theorem C8_cache_last_write_wins (batches : List (List Nat × List (List ℚ))) (k : Nat) :
    run_news batches k = lastEmitted batches k ∧
    run_user batches k = lastEmitted batches k :=
  ⟨dict_last_wins batches k, dict_last_wins batches k⟩

lemma zip_map_fst_eq {α β : Type} :
    ∀ (l1 : List α) (l2 : List β), l1.length = l2.length →
      (l1.zip l2).map (fun x => x.1) = l1 := by
  intro l1
  induction l1 with
  | nil => intro l2 h; simp
  | cons a t ih =>
    intro l2 h
    cases l2 with
    | nil => simp at h
    | cons b t2 =>
      simp only [List.length_cons, Nat.add_right_cancel_iff] at h
      simp [ih t2 h]

lemma zip_map_snd_eq {α β : Type} :
    ∀ (l1 : List α) (l2 : List β), l1.length = l2.length →
      (l1.zip l2).map (fun x => x.2) = l2 := by
  intro l1
  induction l1 with
  | nil =>
    intro l2 h
    cases l2 with
    | nil => simp
    | cons b t2 => simp at h
  | cons a t ih =>
    intro l2 h
    cases l2 with
    | nil => simp at h
    | cons b t2 =>
      simp only [List.length_cons, Nat.add_right_cancel_iff] at h
      simp [ih t2 h]

lemma mem_zip_snd {α β : Type} :
    ∀ (l1 : List α) (l2 : List β) (x : α × β), x ∈ l1.zip l2 → x.2 ∈ l2 := by
  intro l1
  induction l1 with
  | nil => intro l2 x hx; simp at hx
  | cons a t ih =>
    intro l2 x hx
    cases l2 with
    | nil => simp at hx
    | cons b t2 =>
      rcases List.mem_cons.mp hx with hx | hx
      · subst hx; simp
      · exact List.mem_cons_of_mem b (ih t2 x hx)

lemma join_filter_perm {γ : Type} (key : γ → Nat) :
    ∀ (ks : List Nat) (l : List γ), ks.Nodup → (∀ x ∈ l, key x ∈ ks) →
      ((ks.map (fun k => l.filter (fun x => key x == k))).flatten).Perm l := by
  intro ks
  induction ks with
  | nil =>
    intro l _ hcov
    have hnil : l = [] :=
      List.eq_nil_iff_forall_not_mem.mpr (fun x hx => by simpa using hcov x hx)
    simp [hnil]
  | cons k ks ih =>
    intro l hnd hcov
    have hk : k ∉ ks := (List.nodup_cons.mp hnd).1
    have hnd2 : ks.Nodup := (List.nodup_cons.mp hnd).2
    have hmap : ks.map (fun k2 => l.filter (fun x => key x == k2)) =
        ks.map (fun k2 =>
          (l.filter (fun x => !(key x == k))).filter (fun x => key x == k2)) := by
      refine List.map_congr_left (fun k2 hk2 => ?_)
      rw [List.filter_filter]
      refine (List.filter_congr (fun x hx => ?_)).symm
      cases h : (key x == k2) with
      | false => simp [h]
      | true =>
        have h1 : key x = k2 := by simpa using h
        have h2 : (key x == k) = false := by
          refine beq_eq_false_iff_ne.mpr (fun hh => hk ?_)
          have hkk : k = k2 := by rw [← hh, h1]
          rw [hkk]; exact hk2
        simp [h, h2]
    have hcov2 : ∀ x ∈ l.filter (fun x => !(key x == k)), key x ∈ ks := by
      intro x hx
      have hxf := List.mem_filter.mp hx
      rcases List.mem_cons.mp (hcov x hxf.1) with h | h
      · exfalso
        have := hxf.2
        simp [h] at this
      · exact h
    have hperm := ih (l.filter (fun x => !(key x == k))) hnd2 hcov2
    simp only [List.map_cons, List.flatten_cons, hmap]
    exact (List.Perm.append_left _ hperm).trans (List.filter_append_perm _ l)

lemma sorted_keys_facts (keys : List Nat) :
    List.Sorted (fun a b => a ≤ b) (List.insertionSort (fun a b => a ≤ b) keys.dedup) ∧
    (List.insertionSort (fun a b => a ≤ b) keys.dedup).Nodup ∧
    (∀ k, k ∈ List.insertionSort (fun a b => a ≤ b) keys.dedup ↔ k ∈ keys) := by
  refine ⟨List.sorted_insertionSort _ _, ?_, fun k => ?_⟩
  · exact (List.perm_insertionSort _ _).symm.nodup (List.nodup_dedup keys)
  · rw [(List.perm_insertionSort _ _).mem_iff, List.mem_dedup]

lemma group_buckets_perm {α β : Type} (labels : List α) (preds : List β)
    (keys : List Nat) (hl : labels.length = keys.length)
    (hp : preds.length = keys.length) :
    ((group_labels labels preds keys).2.1.flatten).Perm labels ∧
    ((group_labels labels preds keys).2.2.flatten).Perm preds := by
  have hzlen : (preds.zip keys).length = keys.length := by
    rw [List.length_zip, hp, Nat.min_self]
  have hcov : ∀ x ∈ labels.zip (preds.zip keys),
      x.2.2 ∈ List.insertionSort (fun a b => a ≤ b) keys.dedup := by
    intro x hx
    rw [(sorted_keys_facts keys).2.2 x.2.2]
    exact mem_zip_snd _ _ _ (mem_zip_snd _ _ _ hx)
  have hperm := join_filter_perm (fun x : α × β × Nat => x.2.2)
    (List.insertionSort (fun a b => a ≤ b) keys.dedup)
    (labels.zip (preds.zip keys)) (sorted_keys_facts keys).2.1 hcov
  constructor
  · have hmm : (group_labels labels preds keys).2.1 =
        ((List.insertionSort (fun a b => a ≤ b) keys.dedup).map
          (fun k => (labels.zip (preds.zip keys)).filter (fun x => x.2.2 == k))).map
            (List.map (fun x => x.1)) := by
      simp [group_labels, List.map_map, Function.comp]
    rw [hmm, ← List.map_flatten]
    have h1 := hperm.map (fun x : α × β × Nat => x.1)
    have h2 : (labels.zip (preds.zip keys)).map (fun x => x.1) = labels :=
      zip_map_fst_eq _ _ (by rw [hl, hzlen])
    rw [h2] at h1
    exact h1
  · have hmm : (group_labels labels preds keys).2.2 =
        ((List.insertionSort (fun a b => a ≤ b) keys.dedup).map
          (fun k => (labels.zip (preds.zip keys)).filter (fun x => x.2.2 == k))).map
            (List.map (fun x => x.2.1)) := by
      simp [group_labels, List.map_map, Function.comp]
    rw [hmm, ← List.map_flatten]
    have h1 := hperm.map (fun x : α × β × Nat => x.2.1)
    have h2 : (labels.zip (preds.zip keys)).map (fun x => x.2.1) = preds := by
      have hsnd : (labels.zip (preds.zip keys)).map (fun x => x.2) = preds.zip keys :=
        zip_map_snd_eq _ _ (by rw [hl, hzlen])
      have : (labels.zip (preds.zip keys)).map (fun x => x.2.1) =
          ((labels.zip (preds.zip keys)).map (fun x => x.2)).map (fun y => y.1) := by
        rw [List.map_map]; rfl
      rw [this, hsnd]
      exact zip_map_fst_eq _ _ hp
    rw [h2] at h1
    exact h1

/-- C2: group_labels returns the distinct input keys sorted ascending,
each exactly once; the per-key buckets preserve encounter order (each
bucket is a sublist of its input sequence); the bucket lengths sum to the
input length; and the buckets concatenated in key order are a permutation
of the input. -/
theorem C2_group_labels_grouping {α β : Type} (labels : List α) (preds : List β)
    (keys : List Nat) (hl : labels.length = keys.length)
    (hp : preds.length = keys.length) :
    List.Sorted (fun a b => a ≤ b) (group_labels labels preds keys).1 ∧
    (group_labels labels preds keys).1.Nodup ∧
    (∀ k, k ∈ (group_labels labels preds keys).1 ↔ k ∈ keys) ∧
    (∀ b ∈ (group_labels labels preds keys).2.1, b.Sublist labels) ∧
    (∀ b ∈ (group_labels labels preds keys).2.2, b.Sublist preds) ∧
    ((group_labels labels preds keys).2.1.map List.length).sum = labels.length ∧
    ((group_labels labels preds keys).2.1.flatten).Perm labels ∧
    ((group_labels labels preds keys).2.2.map List.length).sum = preds.length ∧
    ((group_labels labels preds keys).2.2.flatten).Perm preds := by
  have hzlen : (preds.zip keys).length = keys.length := by
    rw [List.length_zip, hp, Nat.min_self]
  have hfst : (labels.zip (preds.zip keys)).map (fun x => x.1) = labels :=
    zip_map_fst_eq _ _ (by rw [hl, hzlen])
  have hsnd : (labels.zip (preds.zip keys)).map (fun x => x.2) = preds.zip keys :=
    zip_map_snd_eq _ _ (by rw [hl, hzlen])
  have hPerm := group_buckets_perm labels preds keys hl hp
  refine ⟨(sorted_keys_facts keys).1, (sorted_keys_facts keys).2.1,
    (sorted_keys_facts keys).2.2, ?_, ?_, ?_, hPerm.1, ?_, hPerm.2⟩
  · intro b hb
    rcases List.mem_map.mp hb with ⟨k, _, hk⟩
    subst hk
    have hsub : ((labels.zip (preds.zip keys)).filter (fun x => x.2.2 == k)).Sublist
        (labels.zip (preds.zip keys)) := List.filter_sublist _
    have := hsub.map (fun x => x.1)
    rwa [hfst] at this
  · intro b hb
    rcases List.mem_map.mp hb with ⟨k, _, hk⟩
    subst hk
    have hsub : ((labels.zip (preds.zip keys)).filter (fun x => x.2.2 == k)).Sublist
        (labels.zip (preds.zip keys)) := List.filter_sublist _
    have h1 := hsub.map (fun x => x.2.1)
    have h2 : (labels.zip (preds.zip keys)).map (fun x => x.2.1) = preds := by
      have : (labels.zip (preds.zip keys)).map (fun x => x.2.1) =
          ((labels.zip (preds.zip keys)).map (fun x => x.2)).map (fun y => y.1) := by
        rw [List.map_map]; rfl
      rw [this, hsnd]
      exact zip_map_fst_eq _ _ hp
    rwa [h2] at h1
  · rw [← List.length_flatten, hPerm.1.length_eq]
  · rw [← List.length_flatten, hPerm.2.length_eq]

/-- Witness for C2: the buckets of group_labels on the concrete input,
concatenated in key order, are a permutation of the input labels. -/
theorem C2_group_labels_grouping_witness :
    ((group_labels wLabels wPreds wKeys).2.1.flatten).Perm wLabels :=
  (C2_group_labels_grouping wLabels wPreds wKeys rfl rfl).2.2.2.2.2.2.1

lemma zip_map_pair {α β γ : Type} (f : α → β) (g : α → γ) :
    ∀ (l : List α), (l.map f).zip (l.map g) = l.map (fun a => (f a, g a)) := by
  intro l
  induction l with
  | nil => rfl
  | cons a t ih => simp [ih]

lemma zip_self_map {α β : Type} (h : α → β) (l : List α) :
    l.zip (l.map h) = l.map (fun a => (a, h a)) := by
  have h1 := zip_map_pair (fun a => a) h l
  simpa using h1

lemma zip_proj3_eq {α β γ : Type} (rows : List (α × β × γ)) :
    (rows.map (fun x => x.1)).zip
      ((rows.map (fun x => x.2.1)).zip (rows.map (fun x => x.2.2))) = rows := by
  have h2 : (rows.map (fun x => x.2.1)).zip (rows.map (fun x => x.2.2)) =
      rows.map (fun x => x.2) := by
    rw [zip_map_pair]
  rw [h2]
  have h3 := zip_map_pair (fun x : α × β × γ => x.1) (fun x => x.2) rows
  simpa using h3

lemma slow_eval_buckets (score : Nat → Nat → ℚ) (ds : List ImprRecord) :
    run_slow_eval score ds =
      (skOf score ds, (skOf score ds).map (bLOf score ds),
       (skOf score ds).map (bPOf score ds)) := by
  simp only [run_slow_eval, group_labels]
  rw [zip_proj3_eq]
  rfl

lemma slowRows_key_mem (score : Nat → Nat → ℚ) (ds : List ImprRecord)
    (x : ℚ × ℚ × Nat) (hx : x ∈ slowRows score ds) :
    x.2.2 ∈ ds.map (fun r => r.impr_index) := by
  simp only [slowRows, List.mem_flatten, List.mem_map] at hx
  rcases hx with ⟨block, ⟨r, hr, hblock⟩, hxb⟩
  subst hblock
  rcases List.mem_map.mp hxb with ⟨ci, _, hx2⟩
  subst hx2
  exact List.mem_map.mpr ⟨r, hr, rfl⟩

lemma slowRows_filter (score : Nat → Nat → ℚ) :
    ∀ (ds : List ImprRecord), (ds.map (fun r => r.impr_index)).Nodup →
      ∀ r ∈ ds, (slowRows score ds).filter (fun x => x.2.2 == r.impr_index) =
        (r.news_index.zip r.label).map
          (fun ci => (ci.2, score ci.1 r.impr_index, r.impr_index)) := by
  intro ds
  induction ds with
  | nil => intro _ r hr; simp at hr
  | cons d ds ih =>
    intro hnd r hr
    rw [List.map_cons, List.nodup_cons] at hnd
    have hsplit : slowRows score (d :: ds) =
        (d.news_index.zip d.label).map
          (fun ci => (ci.2, score ci.1 d.impr_index, d.impr_index)) ++
          slowRows score ds := by
      simp [slowRows]
    rw [hsplit, List.filter_append]
    rcases List.mem_cons.mp hr with hr2 | hr2
    · subst hr2
      have hblock : ((r.news_index.zip r.label).map
          (fun ci => (ci.2, score ci.1 r.impr_index, r.impr_index))).filter
            (fun x => x.2.2 == r.impr_index) =
          (r.news_index.zip r.label).map
            (fun ci => (ci.2, score ci.1 r.impr_index, r.impr_index)) := by
        refine List.filter_eq_self.mpr (fun x hx => ?_)
        rcases List.mem_map.mp hx with ⟨ci, _, h⟩
        subst h
        simp
      have hrest : (slowRows score ds).filter (fun x => x.2.2 == r.impr_index) = [] := by
        refine List.filter_eq_nil_iff.mpr (fun x hx => ?_)
        have hxm := slowRows_key_mem score ds x hx
        simp only [beq_eq_false_iff_ne, ne_eq, Bool.not_eq_true, beq_eq_false_iff_ne]
        intro hcontra
        exact hnd.1 (hcontra ▸ hxm)
      rw [hblock, hrest, List.append_nil]
    · have hne2 : d.impr_index ≠ r.impr_index := by
        intro h
        exact hnd.1 (h ▸ List.mem_map.mpr ⟨r, hr2, rfl⟩)
      have hblock : ((d.news_index.zip d.label).map
          (fun ci => (ci.2, score ci.1 d.impr_index, d.impr_index))).filter
            (fun x => x.2.2 == r.impr_index) = [] := by
        refine List.filter_eq_nil_iff.mpr (fun x hx => ?_)
        rcases List.mem_map.mp hx with ⟨ci, _, h⟩
        subst h
        simpa using hne2
      rw [hblock, List.nil_append]
      exact ih hnd.2 r hr2

lemma slow_keys_perm (score : Nat → Nat → ℚ) (ds : List ImprRecord)
    (hnd : (ds.map (fun r => r.impr_index)).Nodup)
    (hlen : ∀ r ∈ ds, r.news_index.length = r.label.length)
    (hner : ∀ r ∈ ds, r.news_index ≠ []) :
    (skOf score ds).Perm (ds.map (fun r => r.impr_index)) := by
  have hnod : (skOf score ds).Nodup :=
    (List.perm_insertionSort _ _).symm.nodup
      (List.nodup_dedup ((slowRows score ds).map (fun x => x.2.2)))
  refine (List.perm_ext_iff_of_nodup hnod hnd).mpr (fun a => ?_)
  rw [skOf, (List.perm_insertionSort _ _).mem_iff, List.mem_dedup]
  constructor
  · intro ha
    rcases List.mem_map.mp ha with ⟨x, hx, hxa⟩
    subst hxa
    exact slowRows_key_mem score ds x hx
  · intro ha
    rcases List.mem_map.mp ha with ⟨r, hr, hra⟩
    subst hra
    obtain ⟨i, irest, hni⟩ : ∃ i irest, r.news_index = i :: irest := by
      cases h : r.news_index with
      | nil => exact absurd h (hner r hr)
      | cons i irest => exact ⟨i, irest, rfl⟩
    obtain ⟨l0, lrest, hlab⟩ : ∃ l0 lrest, r.label = l0 :: lrest := by
      cases h : r.label with
      | nil =>
        exfalso
        have := hlen r hr
        rw [hni, h] at this
        simp at this
      | cons l0 lrest => exact ⟨l0, lrest, rfl⟩
    refine List.mem_map.mpr
      ⟨(l0, score i r.impr_index, r.impr_index), ?_, rfl⟩
    simp only [slowRows, List.mem_flatten, List.mem_map]
    refine ⟨(r.news_index.zip r.label).map
      (fun ci => (ci.2, score ci.1 r.impr_index, r.impr_index)), ⟨r, hr, rfl⟩, ?_⟩
    rw [hni, hlab]
    simp only [List.zip_cons_cons, List.map_cons]
    exact List.mem_cons_self _ _

/-- C1: for a model whose joint scorer output equals the dot product of
its news-encoder and user-encoder outputs, run_fast_eval and
run_slow_eval over the same dataset (distinct impression indexes, one
label per candidate, at least one candidate per impression) produce the
same set of (impression key, label list, prediction list) groups — the
slow groups are a permutation of the fast groups — and hence run_eval
produces identical metric values on either path for any metric engine
that is invariant under reordering the groups. -/
theorem C1_fast_slow_equiv (news_vecs user_vecs : Nat → List ℚ) (score : Nat → Nat → ℚ)
    (ds : List ImprRecord) (cal_metric : List (List ℚ) → List (List ℚ) → ℚ)
    (hscore : ∀ n u, score n u = dotp (news_vecs n) (user_vecs u))
    (hkeys : (ds.map (fun r => r.impr_index)).Nodup)
    (hlen : ∀ r ∈ ds, r.news_index.length = r.label.length)
    (hner : ∀ r ∈ ds, r.news_index ≠ [])
    (hcm : ∀ a b c d : List (List ℚ), ((a.zip b).Perm (c.zip d)) →
        cal_metric a b = cal_metric c d) :
    (((run_slow_eval score ds).1.zip
        ((run_slow_eval score ds).2.1.zip (run_slow_eval score ds).2.2)).Perm
      ((run_fast_eval news_vecs user_vecs ds).1.zip
        ((run_fast_eval news_vecs user_vecs ds).2.1.zip
          (run_fast_eval news_vecs user_vecs ds).2.2))) ∧
    run_eval cal_metric true news_vecs user_vecs score ds =
      run_eval cal_metric false news_vecs user_vecs score ds := by
  have hpoint : ∀ r ∈ ds,
      (r.impr_index, bLOf score ds r.impr_index, bPOf score ds r.impr_index) =
      (r.impr_index, r.label,
       r.news_index.map (fun i => dotp (news_vecs i) (user_vecs r.impr_index))) := by
    intro r hr
    have hfil := slowRows_filter score ds hkeys r hr
    have hL : bLOf score ds r.impr_index = r.label := by
      rw [bLOf, hfil, List.map_map]
      exact zip_map_snd_eq _ _ (hlen r hr)
    have hP : bPOf score ds r.impr_index =
        r.news_index.map (fun i => dotp (news_vecs i) (user_vecs r.impr_index)) := by
      rw [bPOf, hfil, List.map_map]
      have h2 : (r.news_index.zip r.label).map
          ((fun x : ℚ × ℚ × Nat => x.2.1) ∘
            (fun ci : Nat × ℚ => (ci.2, score ci.1 r.impr_index, r.impr_index))) =
          ((r.news_index.zip r.label).map (fun ci => ci.1)).map
            (fun i => score i r.impr_index) := by
        rw [List.map_map]
        rfl
      rw [h2, zip_map_fst_eq _ _ (hlen r hr)]
      exact List.map_congr_left (fun i _ => hscore i r.impr_index)
    rw [hL, hP]
  have hkp := slow_keys_perm score ds hkeys hlen hner
  have hslow := slow_eval_buckets score ds
  have hfast := run_fast_eval_eq news_vecs user_vecs ds
  have hszip : (run_slow_eval score ds).1.zip
      ((run_slow_eval score ds).2.1.zip (run_slow_eval score ds).2.2) =
      (skOf score ds).map
        (fun k => (k, bLOf score ds k, bPOf score ds k)) := by
    rw [hslow, zip_map_pair (bLOf score ds) (bPOf score ds), zip_self_map]
  have hfzip : (run_fast_eval news_vecs user_vecs ds).1.zip
      ((run_fast_eval news_vecs user_vecs ds).2.1.zip
        (run_fast_eval news_vecs user_vecs ds).2.2) =
      ds.map (fun r => (r.impr_index, r.label,
        r.news_index.map (fun i => dotp (news_vecs i) (user_vecs r.impr_index)))) := by
    rw [hfast, zip_map_pair, zip_map_pair]
  have hfs : ds.map (fun r => (r.impr_index, r.label,
      r.news_index.map (fun i => dotp (news_vecs i) (user_vecs r.impr_index)))) =
      (ds.map (fun r => r.impr_index)).map
        (fun k => (k, bLOf score ds k, bPOf score ds k)) := by
    rw [List.map_map]
    exact List.map_congr_left (fun r hr => (hpoint r hr).symm)
  have hPerm3 : (((run_slow_eval score ds).1.zip
      ((run_slow_eval score ds).2.1.zip (run_slow_eval score ds).2.2)).Perm
      ((run_fast_eval news_vecs user_vecs ds).1.zip
        ((run_fast_eval news_vecs user_vecs ds).2.1.zip
          (run_fast_eval news_vecs user_vecs ds).2.2))) := by
    rw [hszip, hfzip, hfs]
    exact hkp.map _
  refine ⟨hPerm3, ?_⟩
  have hsz2 : (run_slow_eval score ds).2.1.zip (run_slow_eval score ds).2.2 =
      (skOf score ds).map (fun k => (bLOf score ds k, bPOf score ds k)) := by
    rw [hslow]
    exact zip_map_pair _ _ _
  have hfz2 : (run_fast_eval news_vecs user_vecs ds).2.1.zip
      (run_fast_eval news_vecs user_vecs ds).2.2 =
      (ds.map (fun r => r.impr_index)).map
        (fun k => (bLOf score ds k, bPOf score ds k)) := by
    rw [hfast, zip_map_pair, List.map_map]
    refine List.map_congr_left (fun r hr => ?_)
    have h2 := congrArg Prod.snd (hpoint r hr)
    simpa using h2.symm
  have hp2 : (((run_slow_eval score ds).2.1.zip (run_slow_eval score ds).2.2).Perm
      ((run_fast_eval news_vecs user_vecs ds).2.1.zip
        (run_fast_eval news_vecs user_vecs ds).2.2)) := by
    rw [hsz2, hfz2]
    exact hkp.map _
  have heq := hcm (run_slow_eval score ds).2.1 (run_slow_eval score ds).2.2
    (run_fast_eval news_vecs user_vecs ds).2.1
    (run_fast_eval news_vecs user_vecs ds).2.2 hp2
  simp only [run_eval, if_true, Bool.false_eq_true, if_false]
  exact heq.symm

/-- Witness for C1: on the concrete dataset, run_eval returns the same
metric value on the fast path and on the slow path. -/
theorem C1_fast_slow_equiv_witness :
    run_eval wMetric true exNewsVecs exUserVecs wScore wDs =
      run_eval wMetric false exNewsVecs exUserVecs wScore wDs :=
  (C1_fast_slow_equiv exNewsVecs exUserVecs wScore wDs wMetric
    (fun _ _ => rfl) (by decide) (by decide) (by decide)
    (fun a b c d h => by
      simpa [wMetric] using
        (h.map (fun g : List ℚ × List ℚ => g.1.sum + g.2.sum)).sum_eq)).2
